import Mathlib

/-! Verification of the dealer-market simulation core against its natural
language specification.  The embedding covers core/simulation.py,
core/agents_mm.py, the market-environment interface of core/market.py and
utils/math_utils.py.

Modelling conventions:
* Python floats are modelled by the rational numbers.
* The numpy power operator (x ** alpha) is modelled by an explicit function
  parameter named powf, because no claim depends on its numeric values; every
  theorem quantifies over it.
* All randomness (the mid-price path, the reference-spread redraw, the
  realized investor trade requests, the np.random.choice tie draw) and the
  external scipy SLSQP optimizer are injected as explicit oracle data, so the
  step function is a deterministic function of the state and of one oracle
  per step.
* Python dicts are modelled by insertion-ordered association lists: an update
  of an existing key keeps its position, a new key is appended.
* A raised Python exception is modelled by Except.error.  The model does not
  keep the partially mutated state of the raising call; this is sound for the
  claims considered because DealerMarketSimulation.run never catches an
  exception, so a raising step aborts the whole run.
* The history list and the per-maker reward lists are stored newest entry
  first; the Python lists append at the end and read the last element.
-/

namespace MarketSim

/-- Insertion-ordered association-list update modelling Python dict
assignment: an existing key keeps its position, a new key is appended at the
end. -/
def dictSet {α : Type} (k : String) (v : α) : List (String × α) → List (String × α)
  | [] => [(k, v)]
  | (k0, v0) :: rest => if k0 = k then (k, v) :: rest else (k0, v0) :: dictSet k v rest

/-- Association-list lookup modelling Python dict.get. -/
def dictGet {α : Type} (k : String) : List (String × α) → Option α
  | [] => none
  | (k0, v0) :: rest => if k0 = k then some v0 else dictGet k rest

/-- core/config.py NUM_TIERS. -/
def NUM_TIERS : ℕ := 5

/-- core/config.py MM_ALPHA_DEFAULT. -/
def MM_ALPHA_DEFAULT : ℚ := 3/2

/-- core/config.py MM_DELTA_TIER. -/
def MM_DELTA_TIER : ℚ := 1/10000

/-- core/config.py TM_DELAY, the settlement delay window in steps. -/
def TM_DELAY : ℕ := 4

/-- core/config.py SIGMA_MKT_LOW, the default volatility argument of the
simulation constructor. -/
def SIGMA_MKT_LOW : ℚ := 1/10

/-- Snapshot of the exogenous market-environment interface consumed by the
core (core/market.py): the current mid price and the reference half-spread
curve get_reference_price_curve.  The stochastic internals of
core/market.py are external collaborators; each market step replaces this
snapshot with fresh oracle data. -/
structure MarketEnvironment where
  mid_price : ℚ
  s_ref : ℚ → ℚ

/-- core/agents_mm.py MarketMaker state. -/
structure MarketMaker where
  agent_id : String
  alpha : ℚ
  gamma : ℚ
  n_max : Int
  sigma_est : ℚ
  net_position : ℚ
  investor_tiers : List (String × ℕ)
  investor_yield_ema : List (String × ℚ)

/-- core/agents_mm.py MarketMaker.__init__: the parameters are stored
unchanged (the source performs no validation of any kind) and the mutable
state starts empty with a flat position. -/
def MarketMaker.init (agent_id : String) (alpha : ℚ) (gamma : ℚ)
    (n_max : Int) (sigma_est : ℚ) : MarketMaker :=
  { agent_id := agent_id
    alpha := alpha
    gamma := gamma
    n_max := n_max
    sigma_est := sigma_est
    net_position := 0
    investor_tiers := []
    investor_yield_ema := [] }

/-- Default used only to read list elements whose index is known to be in
range. -/
def defaultMM : MarketMaker := MarketMaker.init "" MM_ALPHA_DEFAULT (1/2) 20 (1/100)

/-- Stable insertion into a list sorted by descending yield; an element is
placed before the first entry whose yield is not larger, which reproduces the
stability of Python sorted with reverse=True. -/
def insertDesc (x : String × ℚ) : List (String × ℚ) → List (String × ℚ)
  | [] => [x]
  | y :: ys => if y.2 ≤ x.2 then x :: y :: ys else y :: insertDesc x ys

/-- Stable sort by descending yield, modelling
sorted(self.investor_yield_ema.items(), key, reverse=True). -/
def sortDesc : List (String × ℚ) → List (String × ℚ)
  | [] => []
  | x :: xs => insertDesc x (sortDesc xs)

/-- Tier-assignment loop of update_tiering: the entry of rank r is written
the tier min (floor (r * K / n)) (K - 1), that is int(rank / n * K) clamped,
into investor_tiers. -/
def assignTiers (K n : ℕ) : List (String × ℚ) → ℕ → List (String × ℕ) → List (String × ℕ)
  | [], _, tiers => tiers
  | (iid, _) :: rest, rank, tiers =>
      assignTiers K n rest (rank + 1) (dictSet iid (min (rank * K / n) (K - 1)) tiers)

/-- core/agents_mm.py MarketMaker.update_tiering, with the module global
cfg.NUM_TIERS passed explicitly as K: when at least one yield is recorded,
sort the recorded yields descending (stably) and reassign quantile tiers;
otherwise return unchanged. -/
def MarketMaker.update_tiering (K : ℕ) (mm : MarketMaker) : MarketMaker :=
  if mm.investor_yield_ema = [] then mm
  else
    let sorted_investors := sortDesc mm.investor_yield_ema
    { mm with investor_tiers :=
        assignTiers K sorted_investors.length sorted_investors 0 mm.investor_tiers }

/-- core/agents_mm.py MarketMaker.get_quote_spread: tier lookup with the
worst tier NUM_TIERS - 1 as default, reference-spread ratio with the
division-by-near-zero guard, convex volume penalty through powf, and the
constant per-tier penalty. -/
def MarketMaker.get_quote_spread (powf : ℚ → ℚ → ℚ) (mm : MarketMaker)
    (market_env : MarketEnvironment) (investor_id : String) (volume : ℚ) : ℚ :=
  let tier := (dictGet investor_id mm.investor_tiers).getD (NUM_TIERS - 1)
  let s_ref_v := market_env.s_ref volume
  let s_ref_0 := market_env.s_ref 0
  let ratio := if s_ref_0 < 1/10^12 then 1 else s_ref_v / s_ref_0
  s_ref_0 * powf ratio mm.alpha + MM_DELTA_TIER * (tier : ℚ)

/-- core/agents_mm.py MarketMaker.get_quoted_price:
mid + inventory skew + direction * half spread. -/
def MarketMaker.get_quoted_price (powf : ℚ → ℚ → ℚ) (mm : MarketMaker)
    (market_env : MarketEnvironment) (investor_id : String) (volume : ℚ)
    (direction : Int) : ℚ :=
  let half_spread := mm.get_quote_spread powf market_env investor_id volume
  let mid := market_env.mid_price
  let skew := - mm.gamma * mm.sigma_est^2 * mm.net_position
  mid + skew + (direction : ℚ) * half_spread

/-- numpy sign. -/
def qsign (x : ℚ) : ℚ := if 0 < x then 1 else if x < 0 then -1 else 0

/-- utils/math_utils.py solve_almgren_chriss.  The scipy SLSQP call is an
external collaborator and enters the model as optimizerResult: some x0 when
the optimizer converges with first-step fraction res.x[0], none when it does
not converge.  The near-zero guard and the uniform fallback are translated
from the source; the function is total, so no optimizer outcome ever
surfaces as an error. -/
def solve_almgren_chriss (initial_position_z : ℚ) (n_steps : Int)
    (optimizerResult : Option ℚ) : ℚ :=
  let z := |initial_position_z|
  if z < 1/10^9 then 0
  else
    match optimizerResult with
    | some x0 => x0
    | none => 1 / (n_steps : ℚ)

/-- core/agents_mm.py MarketMaker.calculate_hedge_quantity: near-flat
positions hedge nothing; otherwise the solver fraction of the absolute
position is traded against the sign of the position. -/
def MarketMaker.calculate_hedge_quantity (mm : MarketMaker)
    (optimizerResult : Option ℚ) : ℚ × ℚ :=
  if |mm.net_position| < 1/10^6 then (0, 0)
  else
    let x0 := solve_almgren_chriss |mm.net_position| mm.n_max optimizerResult
    (x0 * |mm.net_position|, - qsign mm.net_position)

/-- core/agents_mm.py MarketMaker.update_investor_yield: skipped for
near-zero volume, first observation initializes the EMA directly, later
observations blend with decay 0.9. -/
def MarketMaker.update_investor_yield (mm : MarketMaker) (investor_id : String)
    (total_revenue : ℚ) (volume : ℚ) : MarketMaker :=
  if |volume| < 1/10^9 then mm
  else
    let y_trade := total_revenue / |volume|
    let beta : ℚ := 9/10
    match dictGet investor_id mm.investor_yield_ema with
    | none =>
      { mm with investor_yield_ema := dictSet investor_id y_trade mm.investor_yield_ema }
    | some prev =>
      { mm with investor_yield_ema :=
          dictSet investor_id (beta * prev + (1 - beta) * y_trade) mm.investor_yield_ema }

/-- Trade record appended to the per-step bucket of the delayed trade queue
(core/simulation.py lines 109-117 and 177-194). -/
structure TradeRecord where
  mm_id : String
  inv_id : Option String
  vol : ℚ
  abs_vol : ℚ
  spread_rev : ℚ
  price_at_trade : ℚ
  step : ℕ

/-- Entry of step_log investor_trades. -/
structure InvTradeLog where
  inv : String
  mm : String
  vol : ℚ
  price : ℚ

/-- Entry of step_log hedge_trades. -/
structure HedgeTradeLog where
  taker : String
  maker : String
  vol : ℚ
  spread_paid : ℚ

/-- Per-step log entry appended to history. -/
structure StepLog where
  time : ℕ
  mid_price : ℚ
  investor_trades : List InvTradeLog
  hedge_trades : List HedgeTradeLog
  mm_positions : List (String × ℚ)

/-- Per-maker per-step reward entry (core/simulation.py lines 267-274). -/
structure RewardEntry where
  step : ℕ
  r_spread : ℚ
  r_pos : ℚ
  c_hedge : ℚ
  c_risk : ℚ
  total : ℚ

/-- One realized investor trade request: the non-null outcome of
generate_trade_request for investor inv_id together with the
np.random.choice draw used for a possible price tie. -/
structure InvRequest where
  inv_id : String
  vol : ℚ
  direction : Int
  choice : ℕ

/-- Exogenous data of one simulation step: the new mid price and reference
curve produced by MarketEnvironment.step, the realized investor requests in
investor order, and the optimizer outcome for each market-maker hedge. -/
structure StepOracle where
  new_mid : ℚ
  new_s_ref : ℚ → ℚ
  requests : List InvRequest
  solver : List (Option ℚ)

/-- State of core/simulation.py DealerMarketSimulation. -/
structure SimState where
  market_env : MarketEnvironment
  step_count : ℕ
  sigma_mkt : ℚ
  investors : List String
  market_makers : List MarketMaker
  history : List StepLog
  trade_queue : List (List TradeRecord)
  rewards : List (String × List RewardEntry)

/-- core/simulation.py DealerMarketSimulation.__init__: no validation is
performed either; sigma_mkt is stored as given.  The construction-time
reference curve comes from an external random draw and is injected as
init_s_ref; it is never consumed before the first market step replaces it. -/
def DealerMarketSimulation.init (num_mm num_inv : ℕ) (sigma_mkt : ℚ)
    (init_s_ref : ℚ → ℚ) : SimState :=
  { market_env := { mid_price := 100, s_ref := init_s_ref }
    step_count := 0
    sigma_mkt := sigma_mkt
    investors := (List.range num_inv).map (fun i => "INV_" ++ toString i)
    market_makers := (List.range num_mm).map (fun i =>
      MarketMaker.init ("MM_" ++ toString i) MM_ALPHA_DEFAULT (1/2) 20 (1/100))
    history := []
    trade_queue := []
    rewards := (List.range num_mm).map (fun i => ("MM_" ++ toString i, [])) }

/-- Quotes of all market-makers for one investor request, in maker order
(core/simulation.py lines 77-80). -/
def quoteList (powf : ℚ → ℚ → ℚ) (mms : List MarketMaker) (env : MarketEnvironment)
    (inv_id : String) (vol : ℚ) (direction : Int) : List ℚ :=
  mms.map (fun mm => mm.get_quoted_price powf env inv_id vol direction)

/-- Best price among the quotes: the minimum for an investor buy (direction
+1), the maximum otherwise, as obtained in the source by sorting the quote
list and taking its head (core/simulation.py lines 83-91). -/
def bestQuote (direction : Int) : List ℚ → ℚ
  | [] => 0
  | q :: qs => if direction = 1 then qs.foldl min q else qs.foldl max q

/-- Indices of the market-makers whose quote ties the best price within the
1e-9 tolerance of the source (core/simulation.py lines 87 and 91). -/
def tiedIndices (qs : List ℚ) (best : ℚ) : List ℕ :=
  (List.range qs.length).filter (fun i => |qs.getD i 0 - best| < 1/10^9)

/-- Random winner among the tied best quotes: the source collects the tied
makers and draws one with np.random.choice (core/simulation.py line 94); the
draw enters the model as the oracle value choice, reduced modulo the number
of tied makers so that exactly the tied makers are reachable. -/
def winnerIndex (qs : List ℚ) (best : ℚ) (choice : ℕ) : ℕ :=
  (tiedIndices qs best).getD (choice % (tiedIndices qs best).length) 0

/-- Add delta to the net position of the market-maker at index w. -/
def updateAt : ℕ → ℚ → List MarketMaker → List MarketMaker
  | _, _, [] => []
  | 0, delta, mm :: rest => { mm with net_position := mm.net_position + delta } :: rest
  | w + 1, delta, mm :: rest => mm :: updateAt w delta rest

/-- Execution of one investor trade request (core/simulation.py lines
77-125): quotes, best-price selection, random tie break through the oracle
choice, execution at the best price, position update of the winner only,
and the trade record and log entry.  The empty-quote case reproduces the
IndexError the source would raise with no market-makers. -/
def executeInvestorTrade (powf : ℚ → ℚ → ℚ) (env : MarketEnvironment) (step_idx : ℕ)
    (mms : List MarketMaker) (req : InvRequest) :
    Except String (List MarketMaker × ℕ × ℚ × TradeRecord × InvTradeLog) :=
  let qs := quoteList powf mms env req.inv_id req.vol req.direction
  if qs = [] then .error "IndexError: list index out of range"
  else
    let best_price := bestQuote req.direction qs
    let w := winnerIndex qs best_price req.choice
    let mm_signed_vol := -(req.direction : ℚ) * req.vol
    let current_mid := env.mid_price
    let winner_id := (mms.getD w defaultMM).agent_id
    .ok (updateAt w mm_signed_vol mms, w, best_price,
      { mm_id := winner_id
        inv_id := some req.inv_id
        vol := mm_signed_vol
        abs_vol := req.vol
        spread_rev := mm_signed_vol * (current_mid - best_price)
        price_at_trade := current_mid
        step := step_idx },
      { inv := req.inv_id, mm := winner_id, vol := mm_signed_vol, price := best_price })

/-- Investor-matching phase: the realized requests are executed in order
(core/simulation.py lines 65-125). -/
def processRequests (powf : ℚ → ℚ → ℚ) (env : MarketEnvironment) (step_idx : ℕ)
    (mms : List MarketMaker) :
    List InvRequest → Except String (List MarketMaker × List TradeRecord × List InvTradeLog)
  | [] => .ok (mms, [], [])
  | req :: rest =>
    match executeInvestorTrade powf env step_idx mms req with
    | .error e => .error e
    | .ok (mms1, _, _, tr, lg) =>
      match processRequests powf env step_idx mms1 rest with
      | .error e => .error e
      | .ok (mms2, trs, lgs) => .ok (mms2, tr :: trs, lg :: lgs)

/-- Cheapest counterparty maker for a hedge of the taker at index i
(core/simulation.py lines 152-160): strict improvement, so the first maker
with the minimal spread wins. -/
def findBestMaker (powf : ℚ → ℚ → ℚ) (env : MarketEnvironment) (taker_id : String)
    (vol : ℚ) (i : ℕ) (mms : List MarketMaker) : Option (ℕ × ℚ) :=
  (List.range mms.length).foldl
    (fun best j =>
      if j = i then best
      else
        let s := (mms.getD j defaultMM).get_quote_spread powf env taker_id vol
        match best with
        | none => some (j, s)
        | some (m, bs) => if s < bs then some (j, s) else some (m, bs))
    none

/-- Hedging decision and execution for the market-maker at index i
(core/simulation.py lines 132-201): hedge quantity from the solver, the
1e-4 execution threshold, counterparty selection, the two position updates
and the two trade records. -/
def hedgeStep (powf : ℚ → ℚ → ℚ) (env : MarketEnvironment) (step_idx : ℕ)
    (current_mid : ℚ) (opt : Option ℚ) (i : ℕ) (mms : List MarketMaker) :
    List MarketMaker × List TradeRecord × List HedgeTradeLog :=
  let mm := mms.getD i defaultMM
  let hq := mm.calculate_hedge_quantity opt
  let hedge_vol := hq.1
  let direction_h := hq.2
  if 1/10^4 < hedge_vol then
    match findBestMaker powf env mm.agent_id hedge_vol i mms with
    | none => (mms, [], [])
    | some (m, best_maker_spread) =>
      let taker_vol_signed := direction_h * hedge_vol
      let maker_id := (mms.getD m defaultMM).agent_id
      (updateAt m (-taker_vol_signed) (updateAt i taker_vol_signed mms),
       [{ mm_id := mm.agent_id
          inv_id := none
          vol := taker_vol_signed
          abs_vol := hedge_vol
          spread_rev := 0
          price_at_trade := current_mid
          step := step_idx },
        { mm_id := maker_id
          inv_id := none
          vol := -taker_vol_signed
          abs_vol := hedge_vol
          spread_rev := best_maker_spread * hedge_vol
          price_at_trade := current_mid
          step := step_idx }],
       [{ taker := mm.agent_id
          maker := maker_id
          vol := taker_vol_signed
          spread_paid := best_maker_spread * hedge_vol }])
  else (mms, [], [])

/-- Hedging phase over all market-makers in order; later iterations see the
positions mutated by earlier hedges (core/simulation.py lines 132-201). -/
def processHedges (powf : ℚ → ℚ → ℚ) (env : MarketEnvironment) (step_idx : ℕ)
    (current_mid : ℚ) (solver : List (Option ℚ)) (mms : List MarketMaker) :
    List MarketMaker × List TradeRecord × List HedgeTradeLog :=
  (List.range mms.length).foldl
    (fun acc i =>
      let r := hedgeStep powf env step_idx current_mid (solver.getD i none) i acc.1
      (r.1, acc.2.1 ++ r.2.1, acc.2.2 ++ r.2.2))
    (mms, [], [])

/-- Risk-cost computation of the settlement phase (core/simulation.py lines
211-217 and 255-262): the previous mid from the last logged step when
step_idx exceeds 1, the start-of-step position from the last logged
positions when history is nonempty, and only losses count. -/
def riskCost (history : List StepLog) (step_idx : ℕ) (current_mid : ℚ)
    (mm_id : String) : ℚ :=
  let p_prev := if 1 < step_idx then
      (match history with
       | [] => current_mid
       | lg :: _ => lg.mid_price)
    else current_mid
  let p_delta := current_mid - p_prev
  let z_start : ℚ := match history with
    | [] => 0
    | lg :: _ => (dictGet mm_id lg.mm_positions).getD 0
  min (z_start * p_delta) 0

/-- Settlement and reward accounting for one market-maker (core/simulation.py
lines 225-274): spread revenue over this step investor trades where it was
the maker, hedging cost over this step hedge trades where it was the taker,
delayed position revenue over the settled bucket together with the yield
updates for investor trades, and the risk cost. -/
def settleMM (current_mid : ℚ) (inv_logs : List InvTradeLog)
    (hedge_logs : List HedgeTradeLog) (delayed_trades : List TradeRecord)
    (history : List StepLog) (step_idx : ℕ) (mm : MarketMaker) :
    MarketMaker × RewardEntry :=
  let r_spread := inv_logs.foldl
    (fun a t => if t.mm = mm.agent_id then a + |t.price - current_mid| * |t.vol| else a) 0
  let c_hedge := hedge_logs.foldl
    (fun a t => if t.taker = mm.agent_id then a + t.spread_paid else a) 0
  let settled := delayed_trades.foldl
    (fun (acc : MarketMaker × ℚ) t =>
      if t.mm_id = mm.agent_id then
        let pos_rev := t.vol * (current_mid - t.price_at_trade)
        match t.inv_id with
        | some iid =>
          (acc.1.update_investor_yield iid (t.spread_rev + pos_rev) t.abs_vol,
           acc.2 + pos_rev)
        | none => (acc.1, acc.2 + pos_rev)
      else acc)
    (mm, 0)
  let c_risk := riskCost history step_idx current_mid mm.agent_id
  (settled.1,
   { step := step_idx
     r_spread := r_spread
     r_pos := settled.2
     c_hedge := -c_hedge
     c_risk := c_risk
     total := r_spread + settled.2 - c_hedge + c_risk })

/-- Append a reward entry (newest first) to the series of one maker. -/
def appendReward (id0 : String) (e : RewardEntry)
    (rs : List (String × List RewardEntry)) : List (String × List RewardEntry) :=
  dictSet id0 (e :: (dictGet id0 rs).getD []) rs

/-- core/simulation.py DealerMarketSimulation.step.  The settlement phase
binds delayed_trades only when queue_idx = (step_idx - 1) - TM_DELAY is
nonnegative, yet iterates it for every market-maker; with at least one
market-maker and step_idx at most TM_DELAY the source therefore raises
UnboundLocalError, modelled by the error branch.  With no market-maker the
aggregation loop body never runs and the step completes. -/
def DealerMarketSimulation.step (powf : ℚ → ℚ → ℚ) (o : StepOracle)
    (s : SimState) : Except String SimState :=
  let env2 : MarketEnvironment := { mid_price := o.new_mid, s_ref := o.new_s_ref }
  let current_mid := o.new_mid
  let step_idx := s.step_count + 1
  let mms1 := s.market_makers.map (MarketMaker.update_tiering NUM_TIERS)
  match processRequests powf env2 step_idx mms1 o.requests with
  | .error e => .error e
  | .ok (mms2, inv_records, inv_logs) =>
    let hres := processHedges powf env2 step_idx current_mid o.solver mms2
    let mms3 := hres.1
    let hedge_records := hres.2.1
    let hedge_logs := hres.2.2
    let trade_queue2 := s.trade_queue ++ [inv_records ++ hedge_records]
    match mms3 with
    | [] =>
      .ok { s with
            market_env := env2
            step_count := step_idx
            market_makers := mms3
            history := { time := step_idx
                         mid_price := current_mid
                         investor_trades := inv_logs
                         hedge_trades := hedge_logs
                         mm_positions := [] } :: s.history
            trade_queue := trade_queue2 }
    | _ :: _ =>
      if TM_DELAY + 1 ≤ step_idx then
        let delayed_trades := trade_queue2.getD (step_idx - 1 - TM_DELAY) []
        let settled := mms3.map
          (settleMM current_mid inv_logs hedge_logs delayed_trades s.history step_idx)
        let mms4 := settled.map Prod.fst
        .ok {
          market_env := env2
          step_count := step_idx
          sigma_mkt := s.sigma_mkt
          investors := s.investors
          market_makers := mms4
          history := { time := step_idx
                       mid_price := current_mid
                       investor_trades := inv_logs
                       hedge_trades := hedge_logs
                       mm_positions := mms4.map (fun mm => (mm.agent_id, mm.net_position)) }
                     :: s.history
          trade_queue := trade_queue2
          rewards := settled.foldl (fun rs p => appendReward p.1.agent_id p.2 rs) s.rewards }
      else
        .error "UnboundLocalError: local variable delayed_trades referenced before assignment"

/-- core/simulation.py DealerMarketSimulation.run: the steps in order, one
oracle per step; a raised exception aborts the loop. -/
def DealerMarketSimulation.run (powf : ℚ → ℚ → ℚ) :
    List StepOracle → SimState → Except String SimState
  | [], s => .ok s
  | o :: os, s =>
    match DealerMarketSimulation.step powf o s with
    | .error e => .error e
    | .ok s2 => DealerMarketSimulation.run powf os s2

/-- Quoted-price formula exactly as the specification states it: mid price
plus inventory skew minus-gamma sigma-squared position, plus direction times
the half spread built from the reference curve at the requested volume, the
convexity exponent alpha, and the per-tier penalty for the stored tier of
the investor with the worst tier as default; the reference-spread ratio is
taken as 1 when the base spread is below the near-zero threshold. -/
def specQuotedPrice (powf : ℚ → ℚ → ℚ) (mm : MarketMaker)
    (market_env : MarketEnvironment) (investor_id : String) (volume : ℚ)
    (direction : Int) : ℚ :=
  let u := (dictGet investor_id mm.investor_tiers).getD (NUM_TIERS - 1)
  let ratio := if market_env.s_ref 0 < 1/10^12 then 1
               else market_env.s_ref volume / market_env.s_ref 0
  let h := market_env.s_ref 0 * powf ratio mm.alpha + MM_DELTA_TIER * (u : ℚ)
  let skew := - mm.gamma * mm.sigma_est^2 * mm.net_position
  market_env.mid_price + skew + (direction : ℚ) * h

/-- Start-of-step position as the specification words it: the end of the
previous step position, 0 on the first step. -/
def specZStart (history : List StepLog) (mm_id : String) : ℚ :=
  match history with
  | [] => 0
  | lg :: _ => (dictGet mm_id lg.mm_positions).getD 0

/-- Previous mid price as the specification words it: the previous step mid,
taken equal to the current mid on the first step. -/
def specPrevMid (history : List StepLog) (current_mid : ℚ) : ℚ :=
  match history with
  | [] => current_mid
  | lg :: _ => lg.mid_price

/-- Concrete power oracle for witnesses. -/
def powf0 : ℚ → ℚ → ℚ := fun _ _ => 0

/-- Concrete environment for witnesses. -/
def envZero : MarketEnvironment := { mid_price := 100, s_ref := fun _ => 0 }

/-- Concrete quiet step oracle for witnesses. -/
def oracle0 : StepOracle :=
  { new_mid := 100, new_s_ref := fun _ => 0, requests := [], solver := [] }

/-- Concrete market-maker holding one unit, for witnesses. -/
def mmA : MarketMaker :=
  { MarketMaker.init "MM_A" MM_ALPHA_DEFAULT (1/2) 20 (1/100) with net_position := 1 }

/-- Concrete flat market-maker, for witnesses. -/
def mmB : MarketMaker := MarketMaker.init "MM_B" MM_ALPHA_DEFAULT (1/2) 20 (1/100)

/-- Concrete market-maker with recorded yields, for witnesses. -/
def mmY : MarketMaker :=
  { MarketMaker.init "MM_Y" MM_ALPHA_DEFAULT (1/2) 20 (1/100) with
    investor_yield_ema := [("A", 10), ("B", 5), ("C", 1)] }

/-- Concrete one-entry history where MM_0 held 5 units at a mid of 101, for
witnesses. -/
def histDrop : List StepLog :=
  [{ time := 1
     mid_price := 101
     investor_trades := []
     hedge_trades := []
     mm_positions := [("MM_0", 5)] }]

/-- Concrete market-maker named MM_0, for witnesses. -/
def mm0 : MarketMaker := MarketMaker.init "MM_0" MM_ALPHA_DEFAULT (1/2) 20 (1/100)

/-- Concrete buy request of two units, for witnesses. -/
def reqW : InvRequest := { inv_id := "INV_0", vol := 2, direction := 1, choice := 0 }

theorem dictGet_dictSet_self {α : Type} (k : String) (v : α) (l : List (String × α)) :
    dictGet k (dictSet k v l) = some v := by
  induction l with
  | nil => simp [dictSet, dictGet]
  | cons p rest ih =>
    obtain ⟨k0, v0⟩ := p
    by_cases h : k0 = k
    · simp [dictSet, dictGet, h]
    · simp [dictSet, dictGet, h, ih]

theorem dictGet_dictSet_ne {α : Type} (k k1 : String) (hne : k1 ≠ k) (v : α)
    (l : List (String × α)) : dictGet k1 (dictSet k v l) = dictGet k1 l := by
  induction l with
  | nil => simp [dictSet, dictGet, Ne.symm hne]
  | cons p rest ih =>
    obtain ⟨k0, v0⟩ := p
    by_cases h : k0 = k
    · subst h
      simp [dictSet, dictGet, Ne.symm hne]
    · simp [dictSet, dictGet, h, ih]

theorem updateAt_length (w : ℕ) (d : ℚ) (l : List MarketMaker) :
    (updateAt w d l).length = l.length := by
  induction l generalizing w with
  | nil => simp [updateAt]
  | cons mm rest ih =>
    cases w with
    | zero => simp [updateAt]
    | succ w2 => simp [updateAt, ih]

theorem updateAt_getD_ne (w j : ℕ) (hne : j ≠ w) (d : ℚ) (l : List MarketMaker)
    (dd : MarketMaker) : (updateAt w d l).getD j dd = l.getD j dd := by
  induction l generalizing w j with
  | nil => simp [updateAt]
  | cons mm rest ih =>
    cases w with
    | zero =>
      cases j with
      | zero => exact absurd rfl hne
      | succ j2 => simp [updateAt]
    | succ w2 =>
      cases j with
      | zero => simp [updateAt]
      | succ j2 =>
        simp only [updateAt, List.getD_cons_succ]
        exact ih w2 j2 (fun h => hne (by omega))

theorem updateAt_getD_pos (w : ℕ) (d : ℚ) (l : List MarketMaker) (dd : MarketMaker)
    (hw : w < l.length) :
    ((updateAt w d l).getD w dd).net_position = (l.getD w dd).net_position + d := by
  induction l generalizing w with
  | nil => simp at hw
  | cons mm rest ih =>
    cases w with
    | zero => simp [updateAt]
    | succ w2 =>
      simp only [updateAt, List.getD_cons_succ]
      exact ih w2 (by simpa using hw)

theorem insertDesc_perm (x : String × ℚ) (l : List (String × ℚ)) :
    (insertDesc x l).Perm (x :: l) := by
  induction l with
  | nil => simp [insertDesc]
  | cons y ys ih =>
    unfold insertDesc
    by_cases h : y.2 ≤ x.2
    · rw [if_pos h]
    · rw [if_neg h]
      exact (ih.cons y).trans (List.Perm.swap x y ys)

theorem sortDesc_perm (l : List (String × ℚ)) : (sortDesc l).Perm l := by
  induction l with
  | nil => simp [sortDesc]
  | cons x xs ih =>
    unfold sortDesc
    exact (insertDesc_perm x (sortDesc xs)).trans (ih.cons x)

theorem insertDesc_pairwise (x : String × ℚ) (l : List (String × ℚ))
    (h : l.Pairwise (fun a b => b.2 ≤ a.2)) :
    (insertDesc x l).Pairwise (fun a b => b.2 ≤ a.2) := by
  induction l with
  | nil => simp [insertDesc]
  | cons y ys ih =>
    rw [List.pairwise_cons] at h
    unfold insertDesc
    by_cases hyx : y.2 ≤ x.2
    · rw [if_pos hyx]
      refine List.Pairwise.cons ?_ (List.pairwise_cons.2 h)
      intro z hz
      rcases List.mem_cons.1 hz with h1 | h1
      · rw [h1]; exact hyx
      · exact le_trans (h.1 z h1) hyx
    · rw [if_neg hyx]
      refine List.Pairwise.cons ?_ (ih h.2)
      intro z hz
      have hz2 : z ∈ x :: ys := (insertDesc_perm x ys).mem_iff.1 hz
      rcases List.mem_cons.1 hz2 with h1 | h1
      · rw [h1]; exact (lt_of_not_le hyx).le
      · exact h.1 z h1

theorem sortDesc_pairwise (l : List (String × ℚ)) :
    (sortDesc l).Pairwise (fun a b => b.2 ≤ a.2) := by
  induction l with
  | nil => simp [sortDesc]
  | cons x xs ih => exact insertDesc_pairwise x (sortDesc xs) ih

theorem keys_nodup_unique {l : List (String × ℚ)} (h : (l.map Prod.fst).Nodup)
    {iid : String} {a b : ℚ} (ha : (iid, a) ∈ l) (hb : (iid, b) ∈ l) : a = b := by
  induction l with
  | nil => simp at ha
  | cons p rest ih =>
    rw [List.map_cons, List.nodup_cons] at h
    rcases List.mem_cons.1 ha with h1 | h1 <;> rcases List.mem_cons.1 hb with h2 | h2
    · have h3 : (iid, a) = (iid, b) := h1.trans h2.symm
      exact (Prod.ext_iff.1 h3).2
    · exfalso
      apply h.1
      rw [← h1]
      simpa using List.mem_map_of_mem Prod.fst h2
    · exfalso
      apply h.1
      rw [← h2]
      simpa using List.mem_map_of_mem Prod.fst h1
    · exact ih h.2 h1 h2

theorem assignTiers_getD_notmem (K n : ℕ) (l : List (String × ℚ)) (r : ℕ)
    (tiers : List (String × ℕ)) (iid : String) (h : iid ∉ l.map Prod.fst) :
    dictGet iid (assignTiers K n l r tiers) = dictGet iid tiers := by
  induction l generalizing r tiers with
  | nil => simp [assignTiers]
  | cons p rest ih =>
    obtain ⟨k0, y⟩ := p
    rw [List.map_cons, List.mem_cons] at h
    push_neg at h
    unfold assignTiers
    rw [ih _ _ h.2, dictGet_dictSet_ne _ _ h.1]

theorem assignTiers_getD_rank (K n : ℕ) (l : List (String × ℚ)) (r0 : ℕ)
    (tiers : List (String × ℕ)) (h : (l.map Prod.fst).Nodup) (j : ℕ)
    (hj : j < l.length) :
    dictGet (l.getD j ("", 0)).1 (assignTiers K n l r0 tiers)
      = some (min ((r0 + j) * K / n) (K - 1)) := by
  induction l generalizing r0 tiers j with
  | nil => simp at hj
  | cons p rest ih =>
    obtain ⟨k0, y⟩ := p
    rw [List.map_cons, List.nodup_cons] at h
    cases j with
    | zero =>
      unfold assignTiers
      rw [List.getD_cons_zero]
      rw [assignTiers_getD_notmem _ _ _ _ _ _ h.1]
      simp [dictGet_dictSet_self]
    | succ j2 =>
      unfold assignTiers
      rw [List.getD_cons_succ]
      have harith : r0 + (j2 + 1) = (r0 + 1) + j2 := by omega
      rw [harith]
      exact ih (r0 + 1) _ h.2 j2 (by simpa using hj)

theorem foldl_min_le (q : ℚ) (qs : List ℚ) : ∀ x ∈ q :: qs, qs.foldl min q ≤ x := by
  induction qs generalizing q with
  | nil =>
    intro x hx
    simp at hx
    simp [hx]
  | cons a l ih =>
    intro x hx
    rw [List.foldl_cons]
    have hbase : l.foldl min (min q a) ≤ min q a :=
      ih (min q a) (min q a) (List.mem_cons_self _ _)
    rcases List.mem_cons.1 hx with h1 | h1
    · exact le_trans hbase (by rw [h1]; exact min_le_left _ _)
    rcases List.mem_cons.1 h1 with h2 | h2
    · exact le_trans hbase (by rw [h2]; exact min_le_right _ _)
    · exact ih (min q a) x (List.mem_cons_of_mem _ h2)

theorem foldl_min_mem (q : ℚ) (qs : List ℚ) : qs.foldl min q ∈ q :: qs := by
  induction qs generalizing q with
  | nil => simp
  | cons a l ih =>
    rw [List.foldl_cons]
    have h := ih (min q a)
    rcases List.mem_cons.1 h with h1 | h1
    · rw [h1]
      rcases le_total q a with h2 | h2
      · rw [min_eq_left h2]; exact List.mem_cons_self _ _
      · rw [min_eq_right h2]
        exact List.mem_cons_of_mem _ (List.mem_cons_self _ _)
    · exact List.mem_cons_of_mem _ (List.mem_cons_of_mem _ h1)

theorem foldl_max_le (q : ℚ) (qs : List ℚ) : ∀ x ∈ q :: qs, x ≤ qs.foldl max q := by
  induction qs generalizing q with
  | nil =>
    intro x hx
    simp at hx
    simp [hx]
  | cons a l ih =>
    intro x hx
    rw [List.foldl_cons]
    have hbase : max q a ≤ l.foldl max (max q a) :=
      ih (max q a) (max q a) (List.mem_cons_self _ _)
    rcases List.mem_cons.1 hx with h1 | h1
    · exact le_trans (by rw [h1]; exact le_max_left _ _) hbase
    rcases List.mem_cons.1 h1 with h2 | h2
    · exact le_trans (by rw [h2]; exact le_max_right _ _) hbase
    · exact ih (max q a) x (List.mem_cons_of_mem _ h2)

theorem foldl_max_mem (q : ℚ) (qs : List ℚ) : qs.foldl max q ∈ q :: qs := by
  induction qs generalizing q with
  | nil => simp
  | cons a l ih =>
    rw [List.foldl_cons]
    have h := ih (max q a)
    rcases List.mem_cons.1 h with h1 | h1
    · rw [h1]
      rcases le_total q a with h2 | h2
      · rw [max_eq_right h2]
        exact List.mem_cons_of_mem _ (List.mem_cons_self _ _)
      · rw [max_eq_left h2]; exact List.mem_cons_self _ _
    · exact List.mem_cons_of_mem _ (List.mem_cons_of_mem _ h1)

theorem exists_choice_getD {l : List ℕ} {i : ℕ} (h : i ∈ l) :
    ∃ c, l.getD (c % l.length) 0 = i := by
  induction l with
  | nil => simp at h
  | cons a t ih =>
    rcases List.mem_cons.1 h with h1 | h1
    · refine ⟨0, ?_⟩
      rw [List.length_cons, Nat.zero_mod, List.getD_cons_zero]
      exact h1.symm
    · obtain ⟨c, hc⟩ := ih h1
      refine ⟨c % t.length + 1, ?_⟩
      have ht : 0 < t.length := List.length_pos.2 (List.ne_nil_of_mem h1)
      have hlt : c % t.length + 1 < t.length + 1 := by
        have := Nat.mod_lt c ht
        omega
      rw [List.length_cons, Nat.mod_eq_of_lt hlt, List.getD_cons_succ]
      exact hc

theorem qsign_mul_abs (z : ℚ) : qsign z * |z| = z := by
  unfold qsign
  rcases lt_trichotomy 0 z with h | h | h
  · rw [if_pos h, one_mul, abs_of_pos h]
  · rw [← h]
    simp
  · rw [if_neg (by exact not_lt.2 h.le), if_pos h, abs_of_neg h]
    ring

theorem executeInvestorTrade_ok (powf : ℚ → ℚ → ℚ) (env : MarketEnvironment)
    (idx : ℕ) (mms : List MarketMaker) (req : InvRequest) (h : mms ≠ []) :
    ∃ out, executeInvestorTrade powf env idx mms req = .ok out ∧
      out.1.length = mms.length := by
  have hq : quoteList powf mms env req.inv_id req.vol req.direction ≠ [] := by
    simp [quoteList, h]
  simp only [executeInvestorTrade]
  rw [if_neg hq]
  exact ⟨_, rfl, updateAt_length _ _ _⟩

theorem processRequests_ok (powf : ℚ → ℚ → ℚ) (env : MarketEnvironment) (idx : ℕ)
    (reqs : List InvRequest) :
    ∀ mms : List MarketMaker, mms ≠ [] →
      ∃ out, processRequests powf env idx mms reqs = .ok out ∧
        out.1.length = mms.length := by
  induction reqs with
  | nil =>
    intro mms _
    exact ⟨(mms, [], []), rfl, rfl⟩
  | cons req rest ih =>
    intro mms h
    obtain ⟨⟨mms1, w, bp, tr, lg⟩, hok, hlen⟩ := executeInvestorTrade_ok powf env idx mms req h
    have h1 : mms1 ≠ [] := by
      intro hc
      rw [hc] at hlen
      exact h (List.eq_nil_of_length_eq_zero hlen.symm)
    obtain ⟨⟨mms2, trs, lgs⟩, hok2, hlen2⟩ := ih mms1 h1
    refine ⟨(mms2, tr :: trs, lg :: lgs), ?_, hlen2.trans hlen⟩
    simp only [processRequests, hok, hok2]

theorem hedgeStep_length (powf : ℚ → ℚ → ℚ) (env : MarketEnvironment) (idx : ℕ)
    (mid : ℚ) (opt : Option ℚ) (i : ℕ) (mms : List MarketMaker) :
    (hedgeStep powf env idx mid opt i mms).1.length = mms.length := by
  simp only [hedgeStep]
  split
  · split
    · simp
    · simp [updateAt_length]
  · simp

theorem hedgeFoldLength (powf : ℚ → ℚ → ℚ) (env : MarketEnvironment) (idx : ℕ)
    (mid : ℚ) (solver : List (Option ℚ)) (idxs : List ℕ) :
    ∀ acc : List MarketMaker × List TradeRecord × List HedgeTradeLog,
      ((idxs.foldl (fun acc i =>
        let r := hedgeStep powf env idx mid (solver.getD i none) i acc.1
        (r.1, acc.2.1 ++ r.2.1, acc.2.2 ++ r.2.2)) acc)).1.length = acc.1.length := by
  induction idxs with
  | nil => intro acc; rfl
  | cons a t ih =>
    intro acc
    rw [List.foldl_cons, ih]
    simp [hedgeStep_length]

theorem processHedges_length (powf : ℚ → ℚ → ℚ) (env : MarketEnvironment) (idx : ℕ)
    (mid : ℚ) (solver : List (Option ℚ)) (mms : List MarketMaker) :
    (processHedges powf env idx mid solver mms).1.length = mms.length := by
  simp only [processHedges]
  exact hedgeFoldLength powf env idx mid solver (List.range mms.length) (mms, [], [])

theorem step_early_error (powf : ℚ → ℚ → ℚ) (o : StepOracle) (s : SimState)
    (h1 : s.market_makers ≠ []) (h2 : s.step_count < TM_DELAY) :
    DealerMarketSimulation.step powf o s =
      .error "UnboundLocalError: local variable delayed_trades referenced before assignment" := by
  have hmms1 : s.market_makers.map (MarketMaker.update_tiering NUM_TIERS) ≠ [] := by
    simp [h1]
  obtain ⟨⟨mms2, trs, lgs⟩, hok, hlen⟩ :=
    processRequests_ok powf { mid_price := o.new_mid, s_ref := o.new_s_ref }
      (s.step_count + 1) o.requests
      (s.market_makers.map (MarketMaker.update_tiering NUM_TIERS)) hmms1
  have hlen3 : (processHedges powf { mid_price := o.new_mid, s_ref := o.new_s_ref }
      (s.step_count + 1) o.new_mid o.solver mms2).1.length = s.market_makers.length := by
    rw [processHedges_length]
    simpa using hlen
  simp only [DealerMarketSimulation.step, hok]
  cases h3 : (processHedges powf { mid_price := o.new_mid, s_ref := o.new_s_ref }
      (s.step_count + 1) o.new_mid o.solver mms2).1 with
  | nil =>
    exfalso
    rw [h3] at hlen3
    exact h1 (List.eq_nil_of_length_eq_zero hlen3.symm)
  | cons a t =>
    rw [if_neg]
    intro hc
    have h4 : TM_DELAY = 4 := rfl
    omega

/-- C1: the claim states that a freshly constructed simulation under the
default configuration completes any number of steps without a fatal error
and records zero delayed position revenue during the first delay window.
The code contradicts it: the very first step raises UnboundLocalError,
because the settlement phase binds delayed_trades only when
queue_idx = (step_idx - 1) - TM_DELAY is nonnegative yet iterates it for
every market-maker. -/
theorem step_fresh_sim_unbound_local (powf : ℚ → ℚ → ℚ) (f : ℚ → ℚ) (o : StepOracle) :
    DealerMarketSimulation.step powf o (DealerMarketSimulation.init 2 10 SIGMA_MKT_LOW f) =
      .error "UnboundLocalError: local variable delayed_trades referenced before assignment" := by
  apply step_early_error
  · apply List.ne_nil_of_length_pos
    simp [DealerMarketSimulation.init]
  · show (0 : ℕ) < TM_DELAY
    decide

/-- C2: the claim states that every trade record placed in the bucket of
step t settles exactly at step t + delay_window, exactly once over the whole
run.  The code contradicts it: every run of a freshly constructed default
simulation aborts during its first step with UnboundLocalError, before any
settlement, so no recorded trade ever contributes its position revenue. -/
theorem run_fresh_sim_never_settles (powf : ℚ → ℚ → ℚ) (f : ℚ → ℚ) (o : StepOracle)
    (os : List StepOracle) :
    DealerMarketSimulation.run powf (o :: os)
        (DealerMarketSimulation.init 2 10 SIGMA_MKT_LOW f) =
      .error "UnboundLocalError: local variable delayed_trades referenced before assignment" := by
  have h := step_early_error powf o (DealerMarketSimulation.init 2 10 SIGMA_MKT_LOW f)
    (by apply List.ne_nil_of_length_pos; simp [DealerMarketSimulation.init])
    (by show (0 : ℕ) < TM_DELAY; decide)
  simp only [DealerMarketSimulation.run, h]

/-- C3: get_quoted_price returns mid + skew + direction * h with
skew = -gamma * sigma_est^2 * net_position and
h = s_ref 0 * (s_ref volume / s_ref 0) ^ alpha + delta_tier * u, where u is
the stored tier of the investor with the worst tier NUM_TIERS - 1 as default
for an unknown investor, and the ratio is taken as 1 when s_ref 0 is below
the near-zero threshold: the implementation coincides with the
specification formula for every state, snapshot and power oracle. -/
theorem get_quoted_price_matches_spec (powf : ℚ → ℚ → ℚ) (mm : MarketMaker)
    (env : MarketEnvironment) (investor_id : String) (volume : ℚ)
    (direction : Int) :
    mm.get_quoted_price powf env investor_id volume direction =
      specQuotedPrice powf mm env investor_id volume direction := rfl

/-- C4: in any state consistent with a run (the step index is one more than
the number of logged steps), the recorded risk cost of a market-maker equals
min of start-of-step position times the mid change and 0, with the
start-of-step position read as 0 on the first step and the previous mid read
as the current mid on the first step. -/
theorem settle_risk_cost_spec (hist : List StepLog) (step_idx : ℕ) (mid : ℚ)
    (inv_logs : List InvTradeLog) (hedge_logs : List HedgeTradeLog)
    (delayed : List TradeRecord) (mm : MarketMaker)
    (hconsistent : step_idx = hist.length + 1) :
    (settleMM mid inv_logs hedge_logs delayed hist step_idx mm).2.c_risk =
      min (specZStart hist mm.agent_id * (mid - specPrevMid hist mid)) 0 := by
  have hc : (settleMM mid inv_logs hedge_logs delayed hist step_idx mm).2.c_risk
      = riskCost hist step_idx mid mm.agent_id := rfl
  rw [hc]
  subst hconsistent
  cases hist with
  | nil => simp [riskCost, specZStart, specPrevMid]
  | cons lg rest =>
    have h : (1:ℕ) < (lg :: rest).length + 1 := by simp
    simp [riskCost, specZStart, specPrevMid, h]

/-- Witness for C4: a maker holding 5 units over a mid drop of 1 records a
risk cost of -5; over a mid rise of 1 it records 0. -/
theorem settle_risk_cost_spec_witness :
    (settleMM 100 [] [] [] histDrop 2 mm0).2.c_risk = -5 ∧
    (settleMM 102 [] [] [] histDrop 2 mm0).2.c_risk = 0 := by
  constructor
  · rw [settle_risk_cost_spec histDrop 2 100 [] [] [] mm0 rfl]
    simp [specZStart, specPrevMid, histDrop, dictGet, mm0, MarketMaker.init]
    norm_num [min_def]
  · rw [settle_risk_cost_spec histDrop 2 102 [] [] [] mm0 rfl]
    simp [specZStart, specPrevMid, histDrop, dictGet, mm0, MarketMaker.init]
    norm_num [min_def]

/-- C7: the hedge solver always returns a fraction: 0 when the position
magnitude is below the near-zero threshold regardless of the optimizer, the
first-step fraction when the optimizer converges, and the uniform fraction
1 / n_steps when it does not converge. -/
theorem solve_almgren_chriss_spec (z : ℚ) (n : Int) :
    (∀ opt : Option ℚ, |z| < 1/10^9 → solve_almgren_chriss z n opt = 0) ∧
    (∀ x0 : ℚ, 1/10^9 ≤ |z| → solve_almgren_chriss z n (some x0) = x0) ∧
    (1/10^9 ≤ |z| → solve_almgren_chriss z n none = 1 / (n : ℚ)) := by
  refine ⟨?_, ?_, ?_⟩
  · intro opt h
    simp only [solve_almgren_chriss]
    rw [if_pos h]
  · intro x0 h
    simp only [solve_almgren_chriss]
    rw [if_neg (not_lt.2 h)]
  · intro h
    simp only [solve_almgren_chriss]
    rw [if_neg (not_lt.2 h)]

/-- Witness for C7 at concrete inputs: zero position gives 0 even with a
converged optimizer, a converged optimizer result is returned as is, and
non-convergence falls back to 1/20. -/
theorem solve_almgren_chriss_spec_witness :
    solve_almgren_chriss 0 20 (some (1/2)) = 0 ∧
    solve_almgren_chriss 3 20 (some (1/8)) = 1/8 ∧
    solve_almgren_chriss 3 20 none = 1/20 := by
  refine ⟨?_, ?_, ?_⟩
  · exact (solve_almgren_chriss_spec 0 20).1 (some (1/2)) (by norm_num)
  · exact (solve_almgren_chriss_spec 3 20).2.1 (1/8)
      (le_trans (by norm_num) (le_abs_self 3))
  · rw [(solve_almgren_chriss_spec 3 20).2.2 (le_trans (by norm_num) (le_abs_self 3))]
    norm_num

/-- C9: on settlement the yield EMA of the trading investor is set to
revenue / volume on the first observation, blended with decay 0.9 on later
observations, and the whole state is left unchanged when the volume is below
the near-zero threshold. -/
theorem update_investor_yield_spec (mm : MarketMaker) (iid : String)
    (rev vol : ℚ) :
    (|vol| < 1/10^9 → mm.update_investor_yield iid rev vol = mm) ∧
    (1/10^9 ≤ vol →
      ((dictGet iid mm.investor_yield_ema = none →
        dictGet iid (mm.update_investor_yield iid rev vol).investor_yield_ema
          = some (rev / vol)) ∧
       (∀ prev, dictGet iid mm.investor_yield_ema = some prev →
        dictGet iid (mm.update_investor_yield iid rev vol).investor_yield_ema
          = some (9/10 * prev + (1 - 9/10) * (rev / vol))))) := by
  constructor
  · intro h
    simp only [MarketMaker.update_investor_yield]
    rw [if_pos h]
  · intro hvol
    have hpos : (0:ℚ) < vol := lt_of_lt_of_le (by norm_num) hvol
    have habs : |vol| = vol := abs_of_pos hpos
    have hnot : ¬ |vol| < 1/10^9 := by
      rw [habs]
      exact not_lt.2 hvol
    constructor
    · intro hnone
      simp only [MarketMaker.update_investor_yield]
      rw [if_neg hnot, hnone]
      simp [dictGet_dictSet_self, habs]
    · intro prev hsome
      simp only [MarketMaker.update_investor_yield]
      rw [if_neg hnot, hsome]
      simp [dictGet_dictSet_self, habs]

/-- Witness for C9: first observation 10/2 gives 5, a later observation 0
blends to 9/2, and a zero-volume settlement changes nothing. -/
theorem update_investor_yield_spec_witness :
    dictGet "A" ((mmB.update_investor_yield "A" 10 2).investor_yield_ema) = some 5 ∧
    dictGet "A" (((mmB.update_investor_yield "A" 10 2).update_investor_yield
      "A" 0 2).investor_yield_ema) = some (9/2) ∧
    mmB.update_investor_yield "A" 10 0 = mmB := by
  have h1 := ((update_investor_yield_spec mmB "A" 10 2).2 (by norm_num)).1 rfl
  have h2 : dictGet "A" ((mmB.update_investor_yield "A" 10 2).investor_yield_ema)
      = some 5 := by
    rw [h1]
    norm_num
  refine ⟨h2, ?_, ?_⟩
  · rw [((update_investor_yield_spec (mmB.update_investor_yield "A" 10 2)
      "A" 0 2).2 (by norm_num)).2 5 h2]
    norm_num
  · exact (update_investor_yield_spec mmB "A" 10 0).1 (by norm_num)

/-- C10 counterexample: the claim states that malformed configuration such
as n_max = 0 or a negative volatility makes construction fail fast with a
configuration error.  The constructors of the source contain no validation
at all: construction succeeds and returns an ordinary object carrying the
malformed values unchanged. -/
theorem construction_no_validation :
    (MarketMaker.init "MM_bad" MM_ALPHA_DEFAULT (1/2) 0 (-1/100)).n_max = 0 ∧
    (MarketMaker.init "MM_bad" MM_ALPHA_DEFAULT (1/2) 0 (-1/100)).sigma_est = -1/100 ∧
    (DealerMarketSimulation.init 2 10 (-1/10) (fun _ => 0)).sigma_mkt = -1/10 :=
  ⟨rfl, rfl, rfl⟩

/-- C10 amended: constructing a market-maker or a simulation with malformed
configuration does not fail and is not clamped; the constructors perform no
validation and store every parameter unchanged. -/
theorem construction_stores_params (agent_id : String) (alpha gamma : ℚ)
    (n_max : Int) (sigma_est : ℚ) (num_mm num_inv : ℕ) (sigma_mkt : ℚ)
    (f : ℚ → ℚ) :
    (MarketMaker.init agent_id alpha gamma n_max sigma_est).n_max = n_max ∧
    (MarketMaker.init agent_id alpha gamma n_max sigma_est).sigma_est = sigma_est ∧
    (MarketMaker.init agent_id alpha gamma n_max sigma_est).alpha = alpha ∧
    (MarketMaker.init agent_id alpha gamma n_max sigma_est).gamma = gamma ∧
    (DealerMarketSimulation.init num_mm num_inv sigma_mkt f).sigma_mkt = sigma_mkt :=
  ⟨rfl, rfl, rfl, rfl, rfl⟩

theorem tiedIndices_mem (qs : List ℚ) (best : ℚ) (i : ℕ) :
    i ∈ tiedIndices qs best ↔ i < qs.length ∧ |qs.getD i 0 - best| < 1/10^9 := by
  simp [tiedIndices, List.mem_filter, List.mem_range]

theorem tiedIndices_ne_nil (qs : List ℚ) (best : ℚ) (hmem : best ∈ qs) :
    tiedIndices qs best ≠ [] := by
  obtain ⟨i, hi, hget⟩ := List.mem_iff_getElem.1 hmem
  intro hc
  have hin : i ∈ tiedIndices qs best := by
    rw [tiedIndices_mem]
    refine ⟨hi, ?_⟩
    rw [List.getD_eq_getElem qs 0 hi, hget]
    simp
  rw [hc] at hin
  simp at hin

theorem getD_mem_of_ne_nil {l : List ℕ} (h : l ≠ []) (c : ℕ) :
    l.getD (c % l.length) 0 ∈ l := by
  have hlen : 0 < l.length := List.length_pos.2 h
  have hlt : c % l.length < l.length := Nat.mod_lt c hlen
  rw [List.getD_eq_getElem l 0 hlt]
  exact List.getElem_mem hlt

theorem winnerIndex_mem (qs : List ℚ) (best : ℚ) (choice : ℕ)
    (h : tiedIndices qs best ≠ []) : winnerIndex qs best choice ∈ tiedIndices qs best := by
  simp only [winnerIndex]
  exact getD_mem_of_ne_nil h choice

theorem bestQuote_mem (direction : Int) (qs : List ℚ) (h : qs ≠ []) :
    bestQuote direction qs ∈ qs := by
  cases qs with
  | nil => exact absurd rfl h
  | cons q rest =>
    simp only [bestQuote]
    by_cases hd : direction = 1
    · rw [if_pos hd]
      exact foldl_min_mem q rest
    · rw [if_neg hd]
      exact foldl_max_mem q rest

theorem bestQuote_le_of_one (d : Int) (hd : d = 1) (qs : List ℚ) (h : qs ≠ []) :
    ∀ x ∈ qs, bestQuote d qs ≤ x := by
  cases qs with
  | nil => exact absurd rfl h
  | cons q rest =>
    simp only [bestQuote]
    rw [if_pos hd]
    exact foldl_min_le q rest

theorem le_bestQuote_of_ne_one (d : Int) (hd : d ≠ 1) (qs : List ℚ) (h : qs ≠ []) :
    ∀ x ∈ qs, x ≤ bestQuote d qs := by
  cases qs with
  | nil => exact absurd rfl h
  | cons q rest =>
    simp only [bestQuote]
    rw [if_neg hd]
    exact foldl_max_le q rest

theorem executeInvestorTrade_inv (powf : ℚ → ℚ → ℚ) (env : MarketEnvironment)
    (idx : ℕ) (mms : List MarketMaker) (req : InvRequest)
    (mms2 : List MarketMaker) (w : ℕ) (price : ℚ) (tr : TradeRecord)
    (lg : InvTradeLog) (hne : mms ≠ [])
    (heq : executeInvestorTrade powf env idx mms req = .ok (mms2, w, price, tr, lg)) :
    mms2 = updateAt w (-(req.direction : ℚ) * req.vol) mms ∧
    w = winnerIndex (quoteList powf mms env req.inv_id req.vol req.direction)
          (bestQuote req.direction (quoteList powf mms env req.inv_id req.vol req.direction))
          req.choice ∧
    price = bestQuote req.direction (quoteList powf mms env req.inv_id req.vol req.direction) := by
  have hqne : quoteList powf mms env req.inv_id req.vol req.direction ≠ [] := by
    simp [quoteList, hne]
  simp only [executeInvestorTrade] at heq
  rw [if_neg hqne] at heq
  simp only [Except.ok.injEq, Prod.mk.injEq] at heq
  obtain ⟨h1, h2, h3, _, _⟩ := heq
  refine ⟨?_, h2.symm, h3.symm⟩
  rw [← h1, h2]

/-- C5: whenever the matching phase executes a trade request against a
nonempty maker list with a valid direction, the executed price is the best
quote (a quote that is minimal over all quotes for a buy, maximal for a
sell), the winning maker index lies in range with a quote that ties the best
price within the 1e-9 tolerance, every maker tied within that tolerance is
reachable by some random draw, the winner position changes by exactly
-direction * volume, and every other maker is unchanged by this phase. -/
theorem investor_matching_spec (powf : ℚ → ℚ → ℚ) (env : MarketEnvironment)
    (step_idx : ℕ) (mms : List MarketMaker) (req : InvRequest)
    (hne : mms ≠ []) (mms2 : List MarketMaker) (w : ℕ) (price : ℚ)
    (tr : TradeRecord) (lg : InvTradeLog)
    (heq : executeInvestorTrade powf env step_idx mms req = .ok (mms2, w, price, tr, lg)) :
    price ∈ quoteList powf mms env req.inv_id req.vol req.direction ∧
    (req.direction = 1 →
      ∀ q ∈ quoteList powf mms env req.inv_id req.vol req.direction, price ≤ q) ∧
    (req.direction = -1 →
      ∀ q ∈ quoteList powf mms env req.inv_id req.vol req.direction, q ≤ price) ∧
    w < mms.length ∧
    |(quoteList powf mms env req.inv_id req.vol req.direction).getD w 0 - price|
      < 1/10^9 ∧
    (∀ i, i < mms.length →
      |(quoteList powf mms env req.inv_id req.vol req.direction).getD i 0 - price|
        < 1/10^9 →
      ∃ c, winnerIndex (quoteList powf mms env req.inv_id req.vol req.direction)
        price c = i) ∧
    (mms2.getD w defaultMM).net_position
      = (mms.getD w defaultMM).net_position + (-(req.direction : ℚ) * req.vol) ∧
    (∀ j, j ≠ w → mms2.getD j defaultMM = mms.getD j defaultMM) := by
  obtain ⟨hmms2, hw, hprice⟩ :=
    executeInvestorTrade_inv powf env step_idx mms req mms2 w price tr lg hne heq
  subst hmms2
  subst hw
  subst hprice
  have hqne : quoteList powf mms env req.inv_id req.vol req.direction ≠ [] := by
    simp [quoteList, hne]
  have hlen : (quoteList powf mms env req.inv_id req.vol req.direction).length
      = mms.length := by
    simp [quoteList]
  have hbmem := bestQuote_mem req.direction _ hqne
  have htne := tiedIndices_ne_nil _ _ hbmem
  have hwmem := winnerIndex_mem _ _ req.choice htne
  rw [tiedIndices_mem] at hwmem
  have hwlt : winnerIndex (quoteList powf mms env req.inv_id req.vol req.direction)
      (bestQuote req.direction (quoteList powf mms env req.inv_id req.vol req.direction))
      req.choice < mms.length := by
    rw [← hlen]
    exact hwmem.1
  refine ⟨hbmem, ?_, ?_, hwlt, hwmem.2, ?_, ?_, ?_⟩
  · intro h q hq
    exact bestQuote_le_of_one _ h _ hqne q hq
  · intro h q hq
    exact le_bestQuote_of_ne_one _ (by rw [h]; decide) _ hqne q hq
  · intro i hi hclose
    have hmem : i ∈ tiedIndices (quoteList powf mms env req.inv_id req.vol req.direction)
        (bestQuote req.direction (quoteList powf mms env req.inv_id req.vol req.direction)) := by
      rw [tiedIndices_mem]
      exact ⟨by rw [hlen]; exact hi, hclose⟩
    obtain ⟨c, hc⟩ := exists_choice_getD hmem
    exact ⟨c, by simp only [winnerIndex]; exact hc⟩
  · exact updateAt_getD_pos _ _ _ _ hwlt
  · intro j hj
    exact updateAt_getD_ne _ _ hj _ _ _

/-- Witness for C5 at a concrete two-maker state and a concrete buy request:
the matching phase executes and the executed price is one of the quotes. -/
theorem investor_matching_spec_witness :
    ∃ out, executeInvestorTrade powf0 envZero 1 [mmA, mmB] reqW = .ok out ∧
      out.2.2.1 ∈ quoteList powf0 [mmA, mmB] envZero "INV_0" 2 1 := by
  obtain ⟨⟨mms2, w, price, tr, lg⟩, hok, _⟩ :=
    executeInvestorTrade_ok powf0 envZero 1 [mmA, mmB] reqW (by simp)
  have h := investor_matching_spec powf0 envZero 1 [mmA, mmB] reqW (by simp)
    mms2 w price tr lg hok
  exact ⟨(mms2, w, price, tr, lg), hok, h.1⟩

theorem findBestMakerFold_spec (powf : ℚ → ℚ → ℚ) (env : MarketEnvironment)
    (taker_id : String) (vol : ℚ) (i : ℕ) (mms : List MarketMaker) :
    ∀ (idxs : List ℕ) (acc : Option (ℕ × ℚ)),
      (∀ j ∈ idxs, j < mms.length) →
      (∀ m s, acc = some (m, s) → m ≠ i ∧ m < mms.length) →
      ∀ m s, idxs.foldl (fun best j =>
          if j = i then best
          else
            let s := (mms.getD j defaultMM).get_quote_spread powf env taker_id vol
            match best with
            | none => some (j, s)
            | some (m, bs) => if s < bs then some (j, s) else some (m, bs)) acc
        = some (m, s) → m ≠ i ∧ m < mms.length := by
  intro idxs
  induction idxs with
  | nil =>
    intro acc _ hacc m s h
    exact hacc m s h
  | cons a t ih =>
    intro acc hin hacc m s h
    rw [List.foldl_cons] at h
    refine ih _ (fun j hj => hin j (List.mem_cons_of_mem _ hj)) ?_ m s h
    intro m1 s1 hacc1
    by_cases ha : a = i
    · rw [if_pos ha] at hacc1
      exact hacc m1 s1 hacc1
    · rw [if_neg ha] at hacc1
      cases hd : acc with
      | none =>
        rw [hd] at hacc1
        simp only [Option.some.injEq, Prod.mk.injEq] at hacc1
        obtain ⟨h1, _⟩ := hacc1
        exact ⟨by rw [← h1]; exact ha, by rw [← h1]; exact hin a (List.mem_cons_self a t)⟩
      | some p =>
        obtain ⟨m0, bs0⟩ := p
        rw [hd] at hacc1
        simp only [] at hacc1
        by_cases hs : (mms.getD a defaultMM).get_quote_spread powf env taker_id vol < bs0
        · rw [if_pos hs] at hacc1
          simp only [Option.some.injEq, Prod.mk.injEq] at hacc1
          obtain ⟨h1, _⟩ := hacc1
          exact ⟨by rw [← h1]; exact ha, by rw [← h1]; exact hin a (List.mem_cons_self a t)⟩
        · rw [if_neg hs] at hacc1
          simp only [Option.some.injEq, Prod.mk.injEq] at hacc1
          obtain ⟨h1, _⟩ := hacc1
          have h2 := hacc m0 bs0 hd
          exact ⟨by rw [← h1]; exact h2.1, by rw [← h1]; exact h2.2⟩

theorem findBestMaker_some_spec (powf : ℚ → ℚ → ℚ) (env : MarketEnvironment)
    (taker_id : String) (vol : ℚ) (i : ℕ) (mms : List MarketMaker) (m : ℕ) (s : ℚ)
    (h : findBestMaker powf env taker_id vol i mms = some (m, s)) :
    m ≠ i ∧ m < mms.length := by
  apply findBestMakerFold_spec powf env taker_id vol i mms (List.range mms.length) none
    (fun j hj => List.mem_range.1 hj) (fun m1 s1 h1 => by simp at h1) m s
  simpa [findBestMaker] using h

/-- C6: whenever an inter-dealer hedge executes for the taker at index i
with position z, solver fraction x0 in the unit interval and a selected
maker: the hedge is of magnitude x0 * |z| against the sign of z, the taker
position becomes (1 - x0) * z, which never flips sign and never grows in
magnitude, the maker position changes by exactly the negation of the taker
change, and the two signed changes sum to zero. -/
theorem hedge_execution_spec (powf : ℚ → ℚ → ℚ) (env : MarketEnvironment)
    (step_idx : ℕ) (mid : ℚ) (mms : List MarketMaker) (i : ℕ) (x0 : ℚ)
    (m : ℕ) (s2 : ℚ) (hi : i < mms.length)
    (hz : 1/10^6 ≤ |(mms.getD i defaultMM).net_position|)
    (hx0 : 0 ≤ x0) (hx1 : x0 ≤ 1)
    (hvol : 1/10^4 < x0 * |(mms.getD i defaultMM).net_position|)
    (hfind : findBestMaker powf env (mms.getD i defaultMM).agent_id
        (x0 * |(mms.getD i defaultMM).net_position|) i mms = some (m, s2)) :
    (mms.getD i defaultMM).calculate_hedge_quantity (some x0)
        = (x0 * |(mms.getD i defaultMM).net_position|,
           - qsign (mms.getD i defaultMM).net_position) ∧
    m ≠ i ∧ m < mms.length ∧
    ((hedgeStep powf env step_idx mid (some x0) i mms).1.getD i defaultMM).net_position
        = (1 - x0) * (mms.getD i defaultMM).net_position ∧
    (0 ≤ (mms.getD i defaultMM).net_position →
      0 ≤ ((hedgeStep powf env step_idx mid (some x0) i mms).1.getD i
        defaultMM).net_position) ∧
    ((mms.getD i defaultMM).net_position ≤ 0 →
      ((hedgeStep powf env step_idx mid (some x0) i mms).1.getD i
        defaultMM).net_position ≤ 0) ∧
    |((hedgeStep powf env step_idx mid (some x0) i mms).1.getD i
        defaultMM).net_position| ≤ |(mms.getD i defaultMM).net_position| ∧
    ((hedgeStep powf env step_idx mid (some x0) i mms).1.getD m defaultMM).net_position
        = (mms.getD m defaultMM).net_position
          + x0 * (mms.getD i defaultMM).net_position ∧
    (((hedgeStep powf env step_idx mid (some x0) i mms).1.getD i
        defaultMM).net_position - (mms.getD i defaultMM).net_position)
      + (((hedgeStep powf env step_idx mid (some x0) i mms).1.getD m
        defaultMM).net_position - (mms.getD m defaultMM).net_position) = 0 := by
  have hmi := findBestMaker_some_spec powf env _ _ i mms m s2 hfind
  have hzq : ¬ |(mms.getD i defaultMM).net_position| < 1/10^6 := not_lt.2 hz
  have hcalc : (mms.getD i defaultMM).calculate_hedge_quantity (some x0)
      = (x0 * |(mms.getD i defaultMM).net_position|,
         - qsign (mms.getD i defaultMM).net_position) := by
    simp only [MarketMaker.calculate_hedge_quantity]
    rw [if_neg hzq]
    simp only [solve_almgren_chriss]
    rw [abs_abs, if_neg (not_lt.2 (le_trans (by norm_num) hz))]
  have hstep : (hedgeStep powf env step_idx mid (some x0) i mms).1
      = updateAt m (-(- qsign (mms.getD i defaultMM).net_position
          * (x0 * |(mms.getD i defaultMM).net_position|)))
        (updateAt i (- qsign (mms.getD i defaultMM).net_position
          * (x0 * |(mms.getD i defaultMM).net_position|)) mms) := by
    simp only [hedgeStep, hcalc]
    rw [if_pos hvol]
    simp only [hfind]
  have htvs : - qsign (mms.getD i defaultMM).net_position
      * (x0 * |(mms.getD i defaultMM).net_position|)
      = -(x0 * (mms.getD i defaultMM).net_position) := by
    have h := qsign_mul_abs (mms.getD i defaultMM).net_position
    calc - qsign (mms.getD i defaultMM).net_position
        * (x0 * |(mms.getD i defaultMM).net_position|)
        = -x0 * (qsign (mms.getD i defaultMM).net_position
            * |(mms.getD i defaultMM).net_position|) := by ring
      _ = -x0 * (mms.getD i defaultMM).net_position := by rw [h]
      _ = -(x0 * (mms.getD i defaultMM).net_position) := by ring
  have hposi : ((hedgeStep powf env step_idx mid (some x0) i mms).1.getD i
      defaultMM).net_position = (1 - x0) * (mms.getD i defaultMM).net_position := by
    rw [hstep, updateAt_getD_ne m i (Ne.symm hmi.1)]
    rw [updateAt_getD_pos i _ mms defaultMM hi, htvs]
    ring
  have hposm : ((hedgeStep powf env step_idx mid (some x0) i mms).1.getD m
      defaultMM).net_position = (mms.getD m defaultMM).net_position
        + x0 * (mms.getD i defaultMM).net_position := by
    rw [hstep]
    rw [updateAt_getD_pos m _ _ defaultMM (by rw [updateAt_length]; exact hmi.2)]
    rw [updateAt_getD_ne i m hmi.1, htvs]
    ring
  refine ⟨hcalc, hmi.1, hmi.2, hposi, ?_, ?_, ?_, hposm, ?_⟩
  · intro h
    rw [hposi]
    have h1 : (0:ℚ) ≤ 1 - x0 := by linarith
    exact mul_nonneg h1 h
  · intro h
    rw [hposi]
    have h1 : (0:ℚ) ≤ 1 - x0 := by linarith
    exact mul_nonpos_iff.2 (Or.inl ⟨h1, h⟩)
  · rw [hposi, abs_mul]
    have h1 : |1 - x0| ≤ 1 := by
      rw [abs_le]
      constructor <;> linarith
    calc |1 - x0| * |(mms.getD i defaultMM).net_position|
        ≤ 1 * |(mms.getD i defaultMM).net_position| :=
          mul_le_mul_of_nonneg_right h1 (abs_nonneg _)
      _ = |(mms.getD i defaultMM).net_position| := one_mul _
  · rw [hposi, hposm]
    ring

/-- Witness for C6: a taker holding one unit, solver fraction one half and a
concrete counterparty end with a position of one half. -/
theorem hedge_execution_spec_witness :
    ((hedgeStep powf0 envZero 1 100 (some (1/2)) 0 [mmA, mmB]).1.getD 0
      defaultMM).net_position = 1/2 := by
  have h := hedge_execution_spec powf0 envZero 1 100 [mmA, mmB] 0 (1/2) 1 (1/2500)
    (by norm_num)
    (by norm_num [mmA, MarketMaker.init, List.getD_cons_zero])
    (by norm_num) (by norm_num)
    (by norm_num [mmA, MarketMaker.init, List.getD_cons_zero])
    (by norm_num [findBestMaker, List.range_succ, mmA, mmB, MarketMaker.init,
      MarketMaker.get_quote_spread, envZero, powf0, dictGet, NUM_TIERS,
      MM_DELTA_TIER, defaultMM, List.getD_cons_zero])
  rw [h.2.2.2.1]
  norm_num [mmA, MarketMaker.init, List.getD_cons_zero]

/-- C8: update_tiering ranks exactly the investors with a recorded yield
EMA: the ranking is a permutation of the recorded yields sorted descending,
the investor of rank r receives tier floor(r * K / N) clamped to K - 1,
investors without a recorded yield keep whatever tier entry they had before
(none for a fresh state, hence the worst-tier default at quoting), every
assigned tier is at most K - 1, and an investor whose yield strictly
dominates all others always receives tier 0. -/
theorem update_tiering_spec (K : ℕ) (mm : MarketMaker)
    (hnodup : (mm.investor_yield_ema.map Prod.fst).Nodup) :
    (sortDesc mm.investor_yield_ema).Perm mm.investor_yield_ema ∧
    (sortDesc mm.investor_yield_ema).Pairwise (fun a b => b.2 ≤ a.2) ∧
    (∀ r, r < (sortDesc mm.investor_yield_ema).length →
      dictGet ((sortDesc mm.investor_yield_ema).getD r ("", 0)).1
          (mm.update_tiering K).investor_tiers
        = some (min (r * K / (sortDesc mm.investor_yield_ema).length) (K - 1))) ∧
    (∀ iid, iid ∉ mm.investor_yield_ema.map Prod.fst →
      dictGet iid (mm.update_tiering K).investor_tiers
        = dictGet iid mm.investor_tiers) ∧
    (∀ iid t, iid ∈ mm.investor_yield_ema.map Prod.fst →
      dictGet iid (mm.update_tiering K).investor_tiers = some t → t ≤ K - 1) ∧
    (∀ iid y, (iid, y) ∈ mm.investor_yield_ema →
      (∀ p ∈ mm.investor_yield_ema, p.1 ≠ iid → p.2 < y) →
      dictGet iid (mm.update_tiering K).investor_tiers = some 0) := by
  by_cases hne : mm.investor_yield_ema = []
  · have hupd : mm.update_tiering K = mm := by
      simp only [MarketMaker.update_tiering]
      rw [if_pos hne]
    refine ⟨by rw [hne]; simp [sortDesc], by rw [hne]; simp [sortDesc], ?_, ?_, ?_, ?_⟩
    · intro r hr
      rw [hne] at hr
      simp [sortDesc] at hr
    · intro iid _
      rw [hupd]
    · intro iid t hmem _
      rw [hne] at hmem
      simp at hmem
    · intro iid y hmemb _
      rw [hne] at hmemb
      simp at hmemb
  · have hupd : (mm.update_tiering K).investor_tiers
        = assignTiers K (sortDesc mm.investor_yield_ema).length
            (sortDesc mm.investor_yield_ema) 0 mm.investor_tiers := by
      simp only [MarketMaker.update_tiering]
      rw [if_neg hne]
    have hperm := sortDesc_perm mm.investor_yield_ema
    have hpair := sortDesc_pairwise mm.investor_yield_ema
    have hnds : ((sortDesc mm.investor_yield_ema).map Prod.fst).Nodup :=
      ((hperm.map Prod.fst).nodup_iff).2 hnodup
    refine ⟨hperm, hpair, ?_, ?_, ?_, ?_⟩
    · intro r hr
      rw [hupd]
      have h := assignTiers_getD_rank K (sortDesc mm.investor_yield_ema).length
        (sortDesc mm.investor_yield_ema) 0 mm.investor_tiers hnds r hr
      simpa using h
    · intro iid hmem
      rw [hupd]
      apply assignTiers_getD_notmem
      intro hc
      exact hmem ((hperm.map Prod.fst).mem_iff.1 hc)
    · intro iid t hmem hsome
      have hmem2 : iid ∈ (sortDesc mm.investor_yield_ema).map Prod.fst :=
        ((hperm.map Prod.fst).mem_iff).2 hmem
      obtain ⟨p, hp, hpid⟩ := List.mem_map.1 hmem2
      obtain ⟨r, hr, hget⟩ := List.mem_iff_getElem.1 hp
      have h := assignTiers_getD_rank K (sortDesc mm.investor_yield_ema).length
        (sortDesc mm.investor_yield_ema) 0 mm.investor_tiers hnds r hr
      rw [List.getD_eq_getElem _ _ hr, hget, hpid] at h
      rw [hupd, h] at hsome
      rw [(Option.some.inj hsome).symm]
      exact min_le_right _ _
    · intro iid y hmemb hmax
      have hmems : (iid, y) ∈ sortDesc mm.investor_yield_ema := hperm.mem_iff.2 hmemb
      cases hsort : sortDesc mm.investor_yield_ema with
      | nil =>
        rw [hsort] at hmems
        simp at hmems
      | cons h0 t0 =>
        rw [hsort] at hmems hpair
        have hh0 : h0 = (iid, y) := by
          rcases List.mem_cons.1 hmems with h1 | h1
          · exact h1.symm
          · rw [List.pairwise_cons] at hpair
            have hy : y ≤ h0.2 := hpair.1 (iid, y) h1
            have hh0l : h0 ∈ mm.investor_yield_ema := by
              apply hperm.mem_iff.1
              rw [hsort]
              exact List.mem_cons_self h0 t0
            by_cases hid : h0.1 = iid
            · have hh0pair : (iid, h0.2) ∈ mm.investor_yield_ema := by
                rw [← hid]
                exact hh0l
              have h2 := keys_nodup_unique hnodup hh0pair hmemb
              have h3 : h0 = (h0.1, h0.2) := rfl
              rw [h3, hid, h2]
            · have := hmax h0 hh0l hid
              linarith
        have hr0 : (0:ℕ) < (sortDesc mm.investor_yield_ema).length := by
          rw [hsort]
          simp
        have h := assignTiers_getD_rank K (sortDesc mm.investor_yield_ema).length
          (sortDesc mm.investor_yield_ema) 0 mm.investor_tiers hnds 0 hr0
        rw [hsort, List.getD_cons_zero, hh0] at h
        rw [hupd, hsort, hh0]
        simpa using h

/-- Witness for C8 at the yields A 10, B 5, C 1 with three tiers: the top
yield investor A is assigned tier 0. -/
theorem update_tiering_spec_witness :
    dictGet "A" ((mmY.update_tiering 3).investor_tiers) = some 0 := by
  have h := update_tiering_spec 3 mmY (by simp [mmY, MarketMaker.init])
  apply h.2.2.2.2.2 "A" 10 (by simp [mmY, MarketMaker.init])
  intro p hp hne
  simp [mmY, MarketMaker.init] at hp
  rcases hp with h1 | h1 | h1
  · rw [h1] at hne
    simp at hne
  · rw [h1]
    norm_num
  · rw [h1]
    norm_num

end MarketSim
